import Mathlib

/-!
Verification development for the zip extractor (`src/files/extractor.rs`).

The extractor is embedded shallowly:
* Paths are lists of segments (`FPath`); the store of extracted output is a
  function from paths to nodes (`FS`), rooted at the configured output
  directory.
* The per-entry copy pipeline (`ZipExtractor::extract_file`) is modelled by
  `copyLoop` / `extract_file`: the entry's content stream is the list of
  results that successive `read` calls return, and environmental outcomes of
  the standard-library filesystem calls (`create_dir_all`, `open`,
  `write_all`, `flush`) are success flags carried by the entry
  (`CopyIn`); the store records the writes the pipeline performs.
* Engines: `extract_sequential` mirrors the sequential loop (first error
  aborts, `?` propagation); the parallel engine's per-worker loop logs
  errors and continues, and the archive mutex serializes entry processing,
  so a parallel execution is an interleaving (`IsSchedule`) of the chunk
  lists produced by `chunksList`, run by `runPar`.
* The facade (`ZipExtractor::extract`) is `numThreads` / `extract_dispatch` /
  `extract_ret`; `rayon::ThreadPoolBuilder::build().unwrap()` maps a failed
  pool construction to the `panicked` outcome.
-/

/-- A filesystem path, as the list of its segments.  Paths handed to the
engines are relative to the configured output directory. -/
abbrev FPath := List String

/-- `str::split(sep)` over the character list: every maximal run between
separators, including the empty runs produced by leading, trailing and
doubled separators (`"a//b"` gives `["a", "", "b"]`, `""` gives `[""]`). -/
def splitChars (sep : Char) : List Char → List (List Char)
  | [] => [[]]
  | c :: cs =>
    let r := splitChars sep cs
    if c = sep then [] :: r
    else (c :: r.headD []) :: r.tail

/-- `name.split('/')` of the Rust code, as a list of segment strings. -/
def splitName (s : String) : List String :=
  (splitChars '/' s.data).map (fun cs => String.mk cs)

/-- `SafeName::sanitized_name`: split the raw entry name on `'/'`, keep the
segments that are nonempty and not `".."`.  The Rust code folds the kept
segments onto `PathBuf::new()` with `push`, which is list concatenation of
segments, so the sanitized name is just the filtered segment list. -/
def sanitized_name (name : String) : FPath :=
  (splitName name).filter (fun s => !(s == "") && !(s == ".."))

/-- `self.output_dir.join(file.sanitized_name())` (lines 87 and 132). -/
def out_path (output_dir : FPath) (name : String) : FPath :=
  output_dir ++ sanitized_name name

/-- Rust `Path` component normalization drops non-leading `"."` segments:
`out/./a`, `out/a` and `out/a/.` all name the same path on disk.  Dropping
the `"."` segments of a segment list yields the on-disk form of a path
whose segments sit below some directory. -/
def normalizeSegs (p : FPath) : FPath :=
  p.filter (fun s => !(s == "."))

/-- `p` is a strict descendant of `dir` as the filesystem sees them: after
`"."`-normalization, `dir` is a proper path prefix of `p`.  Without the
normalization `out ++ ["."]` would wrongly count as strictly below `out`,
although Rust `Path` semantics identify the two. -/
def isStrictDescendant (p dir : FPath) : Bool :=
  (normalizeSegs dir).isPrefixOf (normalizeSegs p)
    && decide ((normalizeSegs dir).length < (normalizeSegs p).length)

/-- The entry name contains a parent-directory segment or an empty segment
(the precondition of the traversal-safety claim). -/
def hasTraversalOrEmptySeg (name : String) : Bool :=
  (splitName name).any (fun s => s == "" || s == "..")

/-- The entry name contains at least one real segment: nonempty, not
`".."`, and not the current-directory marker `"."` — a segment that
survives sanitization and is still visible on disk after `Path`
normalization.  A name like `"../."` has none: its only surviving segment
is `"."`, and `out/.` is `out` itself. -/
def hasRealSeg (name : String) : Bool :=
  (splitName name).any (fun s => !(s == "") && !(s == "..") && !(s == "."))

/-- A node of the output tree: a directory, or a file with its bytes. -/
inductive FNode
  | dir
  | file (content : List Nat)
deriving DecidableEq

/-- The output store: what the extractor has materialized at each path. -/
abbrev FS := FPath → Option FNode

/-- The initially empty output directory. -/
def emptyFS : FS := fun _ => none

/-- Record one node write in the store. -/
def FS.setNode (fs : FS) (pv : FPath × FNode) : FS :=
  fun q => if q = pv.1 then some pv.2 else fs q

/-- Apply a list of node writes in order (later writes win). -/
def applyWrites (fs : FS) (ws : List (FPath × FNode)) : FS :=
  ws.foldl FS.setNode fs

/-- All nonempty prefixes of a path: the chain of directories
`create_dir_all` materializes. -/
def leadingDirs (p : FPath) : List FPath :=
  (List.range p.length).map (fun i => p.take (i + 1))

/-- Writes performed by `create_dir_all(p)`. -/
def dirWrites (p : FPath) : List (FPath × FNode) :=
  (leadingDirs p).map (fun q => (q, FNode.dir))

/-- Writes performed by `create_dir_all(parent)` in `extract_file`. -/
def parentWrites (p : FPath) : List (FPath × FNode) :=
  dirWrites p.dropLast

/-- One result of a `reader.read(&mut buffer)` call on the entry's content
stream: `ok bs` returns the bytes `bs` (at most 64 KiB), `err` is a read
error. -/
inductive ReadRes
  | ok (bs : List Nat)
  | err (code : Nat)
deriving DecidableEq

/-- The `io::Error` sites of `extract_file`. -/
inductive CErr
  | mkdirErr
  | openErr
  | writeErr
  | flushErr
deriving DecidableEq

/-- Environment of one `extract_file` call: the successive read results of
the entry's content stream, the successive `write_all` outcomes (an
exhausted list means the remaining writes succeed), and success flags for
the parent `create_dir_all`, the `open`, and the final `flush`. -/
structure CopyIn where
  reads : List ReadRes
  woks : List Bool
  parentOk : Bool
  openOk : Bool
  flushOk : Bool
deriving DecidableEq

/-- The copy loop of `extract_file` (lines 170-176):
`while let Ok(n) = reader.read(&mut buffer) { if n == 0 break;
writer.write_all(&buffer[..n])?; }`.  Returns the bytes handed to the
writer, in order, and the error of a failed `write_all` if any.  Note the
`while let Ok` pattern: a read error merely ends the loop. -/
def copyLoop : List Bool → List ReadRes → List Nat × Option CErr
  | _, [] => ([], none)
  | woks, ReadRes.ok bs :: rest =>
    if bs = [] then ([], none)
    else if woks.headD true then
      let r := copyLoop woks.tail rest
      (bs ++ r.1, r.2)
    else ([], some CErr.writeErr)
  | _, ReadRes.err _ :: _ => ([], none)

/-- `ZipExtractor::extract_file` (lines 152-180): ensure the parent
directories exist, open the destination with create + truncate, run the
copy loop through the buffered writer, flush.  Returns the updated store
and the propagated error, if any. -/
def extract_file (cin : CopyIn) (fs : FS) (p : FPath) : FS × Option CErr :=
  if cin.parentOk then
    let fs1 := applyWrites fs (parentWrites p)
    if cin.openOk then
      let r := copyLoop cin.woks cin.reads
      let fs2 := fs1.setNode (p, FNode.file r.1)
      match r.2 with
      | some e => (fs2, some e)
      | none => if cin.flushOk then (fs2, none) else (fs2, some CErr.flushErr)
    else (fs1, some CErr.openErr)
  else (fs, some CErr.mkdirErr)

/-- The error component of `extract_file`, which does not depend on the
store. -/
def copyErr (cin : CopyIn) : Option CErr :=
  if cin.parentOk then
    if cin.openOk then
      match (copyLoop cin.woks cin.reads).2 with
      | some e => some e
      | none => if cin.flushOk then none else some CErr.flushErr
    else some CErr.openErr
  else some CErr.mkdirErr

/-- `zip::result::ZipError` as seen by the engines: an archive-level error
from `by_index`, or an `io::Error` converted by `?`. -/
inductive ZErr
  | zip (code : Nat)
  | io
deriving DecidableEq

/-- One archive entry as an engine observes it at its index: either
`by_index` fails, or it yields a directory entry (with the outcome of its
`create_dir_all`) or a file entry (with the environment of its
`extract_file` call). -/
inductive EStep
  | fetchErr (code : Nat)
  | dirE (name : String) (mkOk : Bool)
  | fileE (name : String) (cin : CopyIn)
deriving DecidableEq

/-- Process one entry: the per-entry body shared by both engines
(lines 86-93 and 123-142): fetch, compute the sanitized output path, then
`create_dir_all` for a directory entry or `extract_file` for a file entry.
The store is keyed by on-disk paths, so the `"."`-normalization that Rust
`Path` semantics apply to the joined output path is made explicit: entry
names `"a"` and `"./a"` act on the same store location. -/
def processEntry (fs : FS) (s : EStep) : FS × Option ZErr :=
  match s with
  | EStep.fetchErr c => (fs, some (ZErr.zip c))
  | EStep.dirE name mkOk =>
    if mkOk then
      (applyWrites fs (dirWrites (normalizeSegs (sanitized_name name))), none)
    else (fs, some ZErr.io)
  | EStep.fileE name cin =>
    let r := extract_file cin fs (normalizeSegs (sanitized_name name))
    (r.1, r.2.map (fun _ => ZErr.io))

/-- The error an entry produces, independent of the store. -/
def errOf : EStep → Option ZErr
  | EStep.fetchErr c => some (ZErr.zip c)
  | EStep.dirE _ mkOk => if mkOk then none else some ZErr.io
  | EStep.fileE _ cin => (copyErr cin).map (fun _ => ZErr.io)

/-- Decidable success of one entry. -/
def stepOk : EStep → Bool
  | EStep.fetchErr _ => false
  | EStep.dirE _ mkOk => mkOk
  | EStep.fileE _ cin =>
    cin.parentOk && cin.openOk && (copyLoop cin.woks cin.reads).2.isNone
      && cin.flushOk

/-- The node writes a successful entry performs, keyed by on-disk
(normalized) paths like the store itself. -/
def entryWrites : EStep → List (FPath × FNode)
  | EStep.fetchErr _ => []
  | EStep.dirE name _ => dirWrites (normalizeSegs (sanitized_name name))
  | EStep.fileE name cin =>
    parentWrites (normalizeSegs (sanitized_name name)) ++
      [(normalizeSegs (sanitized_name name),
        FNode.file (copyLoop cin.woks cin.reads).1)]

/-- The store after one entry, ignoring its error. -/
def applyStep (fs : FS) (s : EStep) : FS := (processEntry fs s).1

/-- `ZipExtractor::extract_sequential` (lines 81-96): entries in index
order, `?` on every failure, so the first error aborts with the store as it
stands. -/
def extract_sequential (fs : FS) : List EStep → FS × Option ZErr
  | [] => (fs, none)
  | s :: rest =>
    let r := processEntry fs s
    match r.2 with
    | some e => (r.1, some e)
    | none => extract_sequential r.1 rest

/-- The parallel per-entry discipline (lines 122-143) applied along one
global processing order: every error is logged (`eprintln`) and the loop
continues with the next index. -/
def runPar (fs : FS) (logs : List ZErr) : List EStep → FS × List ZErr
  | [] => (fs, logs)
  | s :: rest =>
    let r := processEntry fs s
    runPar r.1 (logs ++ r.2.toList) rest

/-- Fuel-driven worker for `chunksList`; every step consumes at least one
list element, so `l.length` units of fuel always suffice. -/
def chunksGo (kpred : Nat) : Nat → List α → List (List α)
  | _, [] => []
  | 0, _ :: _ => []
  | fuel + 1, a :: l =>
    ((a :: l).take (kpred + 1)) :: chunksGo kpred fuel (l.drop kpred)

/-- `slice::chunks` with chunk size `kpred + 1`: the size the parallel
engine uses is `len / num_threads + 1`, always positive, so the predecessor
form avoids a separate positivity hypothesis. -/
def chunksList (kpred : Nat) (l : List α) : List (List α) :=
  chunksGo kpred l.length l

/-- The chunking of the entry list used by `extract_parallel` (line 117):
`file_indices.chunks(file_indices.len() / num_threads + 1)`, with each
index replaced by the entry it retrieves. -/
def parChunks (steps : List EStep) (w : Nat) : List (List EStep) :=
  chunksList (steps.length / w) steps

/-- The same chunking on the raw index list `0..n`, exactly as the code
builds it. -/
def parIndexChunks (n w : Nat) : List (List Nat) :=
  chunksList (n / w) (List.range n)

/-- Ceiling division, used to state the chunk-count claims. -/
def ceilDiv (a b : Nat) : Nat := (a + b - 1) / b

/-- `Ord::clamp` on `usize` (total version; the real call site always has
`1 <= cpus`). -/
def clampNat (v lo hi : Nat) : Nat := min (max v lo) hi

/-- Worker-count selection of `ZipExtractor::extract` (lines 64-68). -/
def numThreads (worker_threads num_files cpus : Nat) : Nat :=
  if worker_threads = 0 then clampNat (num_files / 20) 1 cpus
  else min worker_threads num_files

/-- The builder-visible configuration of `ZipExtractor`. -/
structure Config where
  read_buffer_size : Nat
  write_buffer_size : Nat
  worker_threads : Nat
deriving DecidableEq

/-- `ZipExtractor::new`: 2 MiB read buffer, 4 MiB write buffer, automatic
worker count. -/
def ZipExtractor.new : Config :=
  { read_buffer_size := 2 * 1024 * 1024
    write_buffer_size := 4 * 1024 * 1024
    worker_threads := 0 }

/-- Environment of one `extract()` call: the outcome of opening and parsing
the archive (on success, the entries it exposes by index), the logical cpu
count, and whether `rayon::ThreadPoolBuilder::build` succeeds. -/
structure ExtractEnv where
  openResult : Except ZErr (List EStep)
  cpus : Nat
  poolOk : Bool

/-- The dispatch decision of `extract` (lines 58-74). -/
inductive Dispatch
  | fatal (e : ZErr)
  | seqMode (steps : List EStep)
  | parMode (steps : List EStep) (w : Nat)
deriving DecidableEq

/-- `ZipExtractor::extract` up to engine dispatch: open the archive
(`?` on failure), select the worker count, compare it with 1. -/
def extract_dispatch (cfg : Config) (env : ExtractEnv) : Dispatch :=
  match env.openResult with
  | Except.error e => Dispatch.fatal e
  | Except.ok steps =>
    let nt := numThreads cfg.worker_threads steps.length env.cpus
    if nt > 1 then Dispatch.parMode steps nt else Dispatch.seqMode steps

/-- The value `extract()` returns: success (elapsed seconds), a structured
`ZipError`, or a panic (the `.unwrap()` on the pool builder). -/
inductive ExtractRet
  | ok
  | err (e : ZErr)
  | panicked
deriving DecidableEq

/-- Whether an `extract()` outcome is a structured error value. -/
def ExtractRet.isStructuredErr : ExtractRet → Bool
  | ExtractRet.err _ => true
  | _ => false

/-- The return value of `extract()`: fatal open errors and sequential-mode
entry errors surface as `err`; in parallel mode a failed pool construction
panics (`.unwrap()`, line 108) and otherwise the engine returns `Ok(())`
(line 148) no matter how many entries failed. -/
def extract_ret (cfg : Config) (env : ExtractEnv) (fs : FS) : ExtractRet :=
  match extract_dispatch cfg env with
  | Dispatch.fatal e => ExtractRet.err e
  | Dispatch.parMode _ _ =>
    if env.poolOk then ExtractRet.ok else ExtractRet.panicked
  | Dispatch.seqMode steps =>
    match (extract_sequential fs steps).2 with
    | some e => ExtractRet.err e
    | none => ExtractRet.ok

/-- `IsSchedule css out`: `out` is one possible global processing order of
the chunk lists `css` — each worker handles its own chunk in order, and the
archive mutex interleaves the workers arbitrarily. -/
inductive IsSchedule : List (List EStep) → List EStep → Prop
  | nil : IsSchedule [] []
  | skip {css out} : IsSchedule css out → IsSchedule ([] :: css) out
  | take {cs css out e} :
      IsSchedule (cs :: css) out → IsSchedule ((e :: cs) :: css) (e :: out)
  | reorder {css css' out} :
      List.Perm css css' → IsSchedule css' out → IsSchedule css out

/-- Two write lists agree wherever they touch the same path. -/
def writesCompat (w1 w2 : List (FPath × FNode)) : Prop :=
  ∀ pv1 ∈ w1, ∀ pv2 ∈ w2, pv1.1 = pv2.1 → pv1.2 = pv2.2

/-- Two entries never write conflicting nodes at the same output path. -/
def entriesCompat (s1 s2 : EStep) : Prop :=
  writesCompat (entryWrites s1) (entryWrites s2)

instance : DecidableRel entriesCompat := fun s1 s2 => by
  unfold entriesCompat writesCompat
  infer_instance

/-- Entries only used by the counterexample to the schedule-equivalence
claim: two file entries whose names sanitize to the same output path but
whose contents differ, plus an unrelated directory entry. -/
def cexFileA : EStep :=
  EStep.fileE "x" ⟨[ReadRes.ok [1], ReadRes.ok []], [], true, true, true⟩

/-- Second colliding file entry of the schedule counterexample. -/
def cexFileB : EStep :=
  EStep.fileE "x" ⟨[ReadRes.ok [2], ReadRes.ok []], [], true, true, true⟩

/-- Filler directory entry of the schedule counterexample. -/
def cexDir : EStep := EStep.dirE "d" true

theorem normalizeSegs_sanitized_ne_nil {name : String}
    (h : hasRealSeg name = true) :
    normalizeSegs (sanitized_name name) ≠ [] := by
  unfold hasRealSeg at h
  rw [List.any_eq_true] at h
  obtain ⟨s, hs, hp⟩ := h
  rw [Bool.and_eq_true, Bool.and_eq_true] at hp
  intro hnil
  have hmem : s ∈ normalizeSegs (sanitized_name name) := by
    unfold normalizeSegs sanitized_name
    rw [List.mem_filter]
    refine ⟨List.mem_filter.2 ⟨hs, ?_⟩, hp.2⟩
    rw [Bool.and_eq_true]
    exact hp.1
  rw [hnil] at hmem
  exact absurd hmem (List.not_mem_nil s)

theorem normalizeSegs_append (p q : FPath) :
    normalizeSegs (p ++ q) = normalizeSegs p ++ normalizeSegs q := by
  unfold normalizeSegs
  rw [List.filter_append]

theorem isStrictDescendant_append {dir r : FPath}
    (h : normalizeSegs r ≠ []) :
    isStrictDescendant (dir ++ r) dir = true := by
  unfold isStrictDescendant
  rw [normalizeSegs_append]
  have h1 : (normalizeSegs dir).isPrefixOf
      (normalizeSegs dir ++ normalizeSegs r) = true :=
    List.isPrefixOf_iff_prefix.2 (List.prefix_append _ _)
  have h3 : 0 < (normalizeSegs r).length := List.length_pos.2 h
  have h2 : (normalizeSegs dir).length <
      (normalizeSegs dir ++ normalizeSegs r).length := by
    rw [List.length_append]
    omega
  simp [h1, h2, h3]

theorem copyLoop_all_ok (cs : List (List Nat)) (hne : ∀ c ∈ cs, c ≠ []) :
    copyLoop [] (cs.map ReadRes.ok ++ [ReadRes.ok []]) = (cs.flatten, none) := by
  induction cs with
  | nil => rfl
  | cons c cs ih =>
    have hc : c ≠ [] := hne c (List.mem_cons_self c cs)
    have ih' := ih (fun d hd => hne d (List.mem_cons_of_mem c hd))
    simp only [List.map_cons, List.cons_append, copyLoop]
    rw [if_neg hc]
    simp only [List.headD_nil, if_true, List.tail_nil, List.append_eq]
    rw [ih']
    simp [List.flatten_cons]

theorem extract_file_snd (cin : CopyIn) (fs : FS) (p : FPath) :
    (extract_file cin fs p).2 = copyErr cin := by
  unfold extract_file copyErr
  by_cases hp : cin.parentOk <;> by_cases ho : cin.openOk <;>
    simp only [hp, ho, if_true, if_false, Bool.false_eq_true] <;>
    try rfl
  cases hl : (copyLoop cin.woks cin.reads).2 <;>
    by_cases hf : cin.flushOk <;> simp [hl, hf]

theorem processEntry_snd (fs : FS) (s : EStep) :
    (processEntry fs s).2 = errOf s := by
  cases s with
  | fetchErr c => rfl
  | dirE name mkOk => cases mkOk <;> simp [processEntry, errOf]
  | fileE name cin => simp [processEntry, errOf, extract_file_snd]

theorem copyErr_eq_none_iff (cin : CopyIn) :
    copyErr cin = none ↔
      (cin.parentOk && cin.openOk && (copyLoop cin.woks cin.reads).2.isNone
        && cin.flushOk) = true := by
  unfold copyErr
  by_cases hp : cin.parentOk <;> by_cases ho : cin.openOk <;>
    by_cases hf : cin.flushOk <;>
    cases hl : (copyLoop cin.woks cin.reads).2 <;>
    simp [hp, ho, hf, hl]

theorem errOf_eq_none_iff (s : EStep) : errOf s = none ↔ stepOk s = true := by
  cases s with
  | fetchErr c => simp [errOf, stepOk]
  | dirE name mkOk => cases mkOk <;> simp [errOf, stepOk]
  | fileE name cin =>
    have h := copyErr_eq_none_iff cin
    simp only [errOf, stepOk]
    cases hc : copyErr cin with
    | none =>
      simp only [hc, true_iff] at h
      simp [h]
    | some e =>
      simp only [hc] at h
      constructor
      · intro hcontra
        simp at hcontra
      · intro hx
        have hcontra := h.2 hx
        simp at hcontra

theorem applyWrites_append (fs : FS) (w1 w2 : List (FPath × FNode)) :
    applyWrites fs (w1 ++ w2) = applyWrites (applyWrites fs w1) w2 := by
  unfold applyWrites
  rw [List.foldl_append]

theorem processEntry_fst_ok {s : EStep} (h : stepOk s = true) (fs : FS) :
    (processEntry fs s).1 = applyWrites fs (entryWrites s) := by
  cases s with
  | fetchErr c => simp [stepOk] at h
  | dirE name mkOk =>
    simp only [stepOk] at h
    simp [processEntry, entryWrites, h]
  | fileE name cin =>
    simp only [stepOk, Bool.and_eq_true, Option.isNone_iff_eq_none] at h
    obtain ⟨⟨⟨hp, ho⟩, hl⟩, hf⟩ := h
    simp only [processEntry, entryWrites, extract_file, hp, ho, hf, if_true]
    rw [applyWrites_append]
    simp only [hl, applyWrites, List.foldl_cons, List.foldl_nil]

theorem applyStep_ok {s : EStep} (h : stepOk s = true) (fs : FS) :
    applyStep fs s = applyWrites fs (entryWrites s) :=
  processEntry_fst_ok h fs

theorem extract_sequential_append_ok (l1 l2 : List EStep) (fs : FS)
    (h : (extract_sequential fs l1).2 = none) :
    extract_sequential fs (l1 ++ l2) =
      extract_sequential (extract_sequential fs l1).1 l2 := by
  induction l1 generalizing fs with
  | nil => rfl
  | cons s l1 ih =>
    simp only [List.cons_append, extract_sequential] at h ⊢
    cases he : (processEntry fs s).2 with
    | some e => rw [he] at h; simp at h
    | none => rw [he] at h; exact ih (processEntry fs s).1 h

theorem extract_sequential_all_ok (steps : List EStep) (fs : FS)
    (h : ∀ x ∈ steps, stepOk x = true) :
    extract_sequential fs steps = (steps.foldl applyStep fs, none) := by
  induction steps generalizing fs with
  | nil => rfl
  | cons s rest ih =>
    have hs : stepOk s = true := h s (List.mem_cons_self s rest)
    have he : (processEntry fs s).2 = none := by
      rw [processEntry_snd]
      exact (errOf_eq_none_iff s).2 hs
    simp only [extract_sequential, he, List.foldl_cons]
    exact ih (applyStep fs s) (fun x hx => h x (List.mem_cons_of_mem s hx))

theorem runPar_fst (l : List EStep) (fs : FS) (logs : List ZErr) :
    (runPar fs logs l).1 = l.foldl applyStep fs := by
  induction l generalizing fs logs with
  | nil => rfl
  | cons s rest ih =>
    simp only [runPar, List.foldl_cons]
    exact ih _ _

theorem runPar_append (l1 l2 : List EStep) (fs : FS) (logs : List ZErr) :
    runPar fs logs (l1 ++ l2) =
      runPar (runPar fs logs l1).1 (runPar fs logs l1).2 l2 := by
  induction l1 generalizing fs logs with
  | nil => rfl
  | cons s l1 ih =>
    simp only [List.cons_append, runPar]
    exact ih _ _

theorem runPar_logs_shift (l : List EStep) (fs : FS) (logs : List ZErr) :
    (runPar fs logs l).2 = logs ++ (runPar fs [] l).2 := by
  induction l generalizing fs logs with
  | nil => simp [runPar]
  | cons s rest ih =>
    simp only [runPar]
    rw [ih _ (logs ++ (processEntry fs s).2.toList),
      ih _ ([] ++ (processEntry fs s).2.toList)]
    simp [List.append_assoc]

theorem runPar_all_ok_logs (l : List EStep) (fs : FS) (logs : List ZErr)
    (h : ∀ x ∈ l, stepOk x = true) :
    (runPar fs logs l).2 = logs := by
  induction l generalizing fs logs with
  | nil => rfl
  | cons s rest ih =>
    have hs : stepOk s = true := h s (List.mem_cons_self s rest)
    have he : (processEntry fs s).2 = none := by
      rw [processEntry_snd]
      exact (errOf_eq_none_iff s).2 hs
    simp only [runPar, he, Option.toList_none, List.append_nil]
    exact ih _ _ (fun x hx => h x (List.mem_cons_of_mem s hx))

theorem setNode_comm (fs : FS) (pv qv : FPath × FNode)
    (h : pv.1 = qv.1 → pv.2 = qv.2) :
    (fs.setNode pv).setNode qv = (fs.setNode qv).setNode pv := by
  by_cases hk : pv.1 = qv.1
  · have hv : pv.2 = qv.2 := h hk
    funext q
    unfold FS.setNode
    by_cases h1 : q = pv.1
    · simp [h1, hk, hv]
    · have h2 : ¬ q = qv.1 := by rw [← hk]; exact h1
      simp [h1, h2]
  · funext q
    unfold FS.setNode
    by_cases h1 : q = pv.1
    · have h2 : ¬ q = qv.1 := by rw [h1]; exact hk
      simp only [h1, h2, if_true, if_false]
      rw [if_neg hk]
    · by_cases h2 : q = qv.1
      · simp only [h1, h2, if_true, if_false]
        rw [if_neg (fun hc => hk hc.symm)]
      · simp [h1, h2]

theorem applyWrites_setNode_comm (fs : FS) (pv : FPath × FNode)
    (w : List (FPath × FNode)) (h : ∀ qv ∈ w, pv.1 = qv.1 → pv.2 = qv.2) :
    applyWrites (fs.setNode pv) w = (applyWrites fs w).setNode pv := by
  induction w generalizing fs with
  | nil => rfl
  | cons qv w ih =>
    simp only [applyWrites, List.foldl_cons]
    rw [show (fs.setNode pv).setNode qv = (fs.setNode qv).setNode pv from
      setNode_comm fs pv qv (h qv (List.mem_cons_self qv w))]
    exact ih (fs.setNode qv) (fun x hx => h x (List.mem_cons_of_mem qv hx))

theorem applyWrites_comm (fs : FS) (w1 w2 : List (FPath × FNode))
    (h : writesCompat w1 w2) :
    applyWrites (applyWrites fs w1) w2 = applyWrites (applyWrites fs w2) w1 := by
  induction w1 generalizing fs with
  | nil => rfl
  | cons pv w1 ih =>
    simp only [applyWrites, List.foldl_cons]
    have h1 : ∀ qv ∈ w2, pv.1 = qv.1 → pv.2 = qv.2 :=
      fun qv hqv => h pv (List.mem_cons_self pv w1) qv hqv
    have h2 : writesCompat w1 w2 :=
      fun x hx => h x (List.mem_cons_of_mem pv hx)
    calc (w2.foldl FS.setNode (w1.foldl FS.setNode (fs.setNode pv)))
        = (w1.foldl FS.setNode (w2.foldl FS.setNode (fs.setNode pv))) :=
          ih (fs.setNode pv) h2
      _ = (w1.foldl FS.setNode ((w2.foldl FS.setNode fs).setNode pv)) := by
          have hx := applyWrites_setNode_comm fs pv w2 h1
          unfold applyWrites at hx
          rw [hx]

theorem mem_leadingDirs_length {q r : FPath} (h : q ∈ leadingDirs r) :
    1 ≤ q.length ∧ q.length ≤ r.length := by
  unfold leadingDirs at h
  rw [List.mem_map] at h
  obtain ⟨i, hi, rfl⟩ := h
  rw [List.mem_range] at hi
  rw [List.length_take]
  omega

theorem mem_dirWrites {pv : FPath × FNode} {p : FPath} (h : pv ∈ dirWrites p) :
    pv.2 = FNode.dir ∧ pv.1 ∈ leadingDirs p := by
  unfold dirWrites at h
  rw [List.mem_map] at h
  obtain ⟨q, hq, rfl⟩ := h
  exact ⟨rfl, hq⟩

theorem entriesCompat_self (s : EStep) : entriesCompat s s := by
  unfold entriesCompat writesCompat
  cases s with
  | fetchErr c =>
    intro pv1 h1
    simp [entryWrites] at h1
  | dirE name mkOk =>
    intro pv1 h1 pv2 h2 hk
    simp only [entryWrites] at h1 h2
    rw [(mem_dirWrites h1).1, (mem_dirWrites h2).1]
  | fileE name cin =>
    intro pv1 h1 pv2 h2 hk
    simp only [entryWrites] at h1 h2
    rw [List.mem_append] at h1 h2
    rcases h1 with h1 | h1 <;> rcases h2 with h2 | h2
    · rw [(mem_dirWrites h1).1, (mem_dirWrites h2).1]
    · exfalso
      rw [List.mem_singleton] at h2
      have hl := mem_leadingDirs_length (mem_dirWrites h1).2
      rw [List.length_dropLast] at hl
      have hk2 : pv1.1.length = (normalizeSegs (sanitized_name name)).length := by
        rw [hk, h2]
      omega
    · exfalso
      rw [List.mem_singleton] at h1
      have hl := mem_leadingDirs_length (mem_dirWrites h2).2
      rw [List.length_dropLast] at hl
      have hk2 : pv2.1.length = (normalizeSegs (sanitized_name name)).length := by
        rw [← hk, h1]
      omega
    · rw [List.mem_singleton] at h1 h2
      rw [h1, h2]

theorem entriesCompat_symm : Symmetric entriesCompat := by
  intro s1 s2 h pv1 h1 pv2 h2 hk
  exact (h pv2 h2 pv1 h1 hk.symm).symm

theorem isSchedule_perm {css : List (List EStep)} {out : List EStep}
    (h : IsSchedule css out) : List.Perm out css.flatten := by
  induction h with
  | nil => exact List.Perm.refl []
  | skip h ih => simpa using ih
  | @take cs css out e h ih => simpa using List.Perm.cons e ih
  | reorder hp h ih => exact ih.trans (List.Perm.flatten hp).symm

theorem chunksGo_nil (kpred fuel : Nat) : chunksGo kpred fuel ([] : List α) = [] := by
  cases fuel <;> rfl

theorem chunksGo_flatten (kpred : Nat) :
    ∀ (fuel : Nat) (l : List α), l.length ≤ fuel →
      (chunksGo kpred fuel l).flatten = l := by
  intro fuel
  induction fuel with
  | zero =>
    intro l hl
    rw [List.eq_nil_of_length_eq_zero (Nat.le_zero.1 hl)]
    rfl
  | succ fuel ih =>
    intro l hl
    cases l with
    | nil => rfl
    | cons a l =>
      simp only [chunksGo, List.flatten_cons]
      rw [ih (l.drop kpred) (by rw [List.length_drop]; simp at hl; omega)]
      rw [List.take_succ_cons, List.cons_append, List.take_append_drop]

theorem chunksList_flatten (kpred : Nat) (l : List α) :
    (chunksList kpred l).flatten = l :=
  chunksGo_flatten kpred l.length l (Nat.le_refl _)

theorem chunksGo_mem (kpred : Nat) :
    ∀ (fuel : Nat) (l : List α), l.length ≤ fuel →
      ∀ c ∈ chunksGo kpred fuel l, c ≠ [] ∧ c.length ≤ kpred + 1 := by
  intro fuel
  induction fuel with
  | zero =>
    intro l hl c hc
    rw [List.eq_nil_of_length_eq_zero (Nat.le_zero.1 hl)] at hc
    simp [chunksGo_nil] at hc
  | succ fuel ih =>
    intro l hl c hc
    cases l with
    | nil => simp [chunksGo_nil] at hc
    | cons a l =>
      simp only [chunksGo] at hc
      rcases List.mem_cons.1 hc with hc | hc
      · constructor
        · rw [hc, List.take_succ_cons]
          exact List.cons_ne_nil a _
        · rw [hc, List.length_take]
          omega
      · exact ih (l.drop kpred)
          (by rw [List.length_drop]; simp at hl; omega) c hc

theorem chunksGo_ne_nil (kpred fuel : Nat) {l : List α}
    (hne : l ≠ []) (hl : l.length ≤ fuel) : chunksGo kpred fuel l ≠ [] := by
  cases l with
  | nil => exact absurd rfl hne
  | cons a l =>
    cases fuel with
    | zero => simp at hl
    | succ fuel => simp [chunksGo]

theorem chunksGo_dropLast (kpred : Nat) :
    ∀ (fuel : Nat) (l : List α), l.length ≤ fuel →
      ∀ c ∈ (chunksGo kpred fuel l).dropLast, c.length = kpred + 1 := by
  intro fuel
  induction fuel with
  | zero =>
    intro l hl c hc
    rw [List.eq_nil_of_length_eq_zero (Nat.le_zero.1 hl)] at hc
    simp [chunksGo_nil] at hc
  | succ fuel ih =>
    intro l hl c hc
    cases l with
    | nil => simp [chunksGo_nil] at hc
    | cons a l =>
      simp only [chunksGo] at hc
      cases hr : l.drop kpred with
      | nil =>
        rw [hr, chunksGo_nil] at hc
        simp at hc
      | cons b lb =>
        have hlen : (l.drop kpred).length ≤ fuel := by
          rw [List.length_drop]
          simp at hl
          omega
        have hrest : chunksGo kpred fuel (l.drop kpred) ≠ [] :=
          chunksGo_ne_nil kpred fuel (by rw [hr]; exact List.cons_ne_nil b lb) hlen
        rw [List.dropLast_cons_of_ne_nil hrest] at hc
        rcases List.mem_cons.1 hc with hc | hc
        · have hgt : kpred < l.length := by
            by_contra hcon
            rw [List.drop_eq_nil_of_le (by omega)] at hr
            exact List.noConfusion hr
          rw [hc, List.length_take]
          simp
          omega
        · exact ih (l.drop kpred) hlen c hc

theorem chunksList_mem (kpred : Nat) (l : List α) :
    ∀ c ∈ chunksList kpred l, c ≠ [] ∧ c.length ≤ kpred + 1 :=
  chunksGo_mem kpred l.length l (Nat.le_refl _)

theorem chunksList_dropLast (kpred : Nat) (l : List α) :
    ∀ c ∈ (chunksList kpred l).dropLast, c.length = kpred + 1 :=
  chunksGo_dropLast kpred l.length l (Nat.le_refl _)

theorem chunksGo_length_le (kpred : Nat) :
    ∀ (m fuel : Nat) (l : List α), l.length ≤ fuel →
      l.length ≤ m * (kpred + 1) → (chunksGo kpred fuel l).length ≤ m := by
  intro m
  induction m with
  | zero =>
    intro fuel l hf hm
    simp only [Nat.zero_mul, Nat.le_zero, List.length_eq_zero] at hm
    rw [hm, chunksGo_nil]
    exact Nat.le_refl 0
  | succ m ih =>
    intro fuel l hf hm
    cases l with
    | nil => rw [chunksGo_nil]; exact Nat.zero_le _
    | cons a l =>
      cases fuel with
      | zero => simp at hf
      | succ fuel =>
        simp only [chunksGo, List.length_cons]
        have h1 : (l.drop kpred).length ≤ fuel := by
          rw [List.length_drop]
          simp at hf
          omega
        have h2 : (l.drop kpred).length ≤ m * (kpred + 1) := by
          rw [List.length_drop]
          have hexp : (m + 1) * (kpred + 1) = m * (kpred + 1) + kpred + 1 := by
            ring
          rw [hexp] at hm
          simp only [List.length_cons] at hm
          generalize m * (kpred + 1) = A at hm ⊢
          omega
        exact Nat.succ_le_succ (ih fuel (l.drop kpred) h1 h2)

theorem chunksList_length_le (l : List α) (w : Nat) (hw : 1 ≤ w) :
    (chunksList (l.length / w) l).length ≤ w := by
  apply chunksGo_length_le _ w l.length l (Nat.le_refl _)
  have hmod : w * (l.length / w) + l.length % w = l.length :=
    Nat.div_add_mod l.length w
  have hlt : l.length % w < w := Nat.mod_lt _ hw
  have hexp : w * (l.length / w + 1) = w * (l.length / w) + w := by ring
  have hgoal : l.length ≤ w * (l.length / w + 1) := by
    rw [hexp]
    generalize w * (l.length / w) = A at hmod ⊢
    generalize l.length % w = B at hmod hlt ⊢
    omega
  calc l.length ≤ w * (l.length / w + 1) := hgoal
    _ = (l.length / w + 1) * w := Nat.mul_comm _ _
    _ = w * (l.length / w + 1) := Nat.mul_comm _ _

/-- C1 (corrected): for an entry name containing parent-directory or empty
segments, the output path `output_dir.join(sanitized_name)` is a strict
descendant of the output directory — descendance judged on the on-disk
(`"."`-normalized) paths, as Rust `Path` semantics identify `out/.` with
`out` — provided at least one segment of the name is nonempty and neither
`".."` nor `"."`.  Without that proviso the claim fails: a name such as
`"../.."` joins to the output directory itself, and `"../."` joins to
`out/.`, which is the output directory on disk (see the counterexample). -/
theorem sanitize_strict_descendant (dir : FPath) (name : String)
    (hbad : hasTraversalOrEmptySeg name = true)
    (hreal : hasRealSeg name = true) :
    isStrictDescendant (out_path dir name) dir = true := by
  unfold out_path
  exact isStrictDescendant_append (normalizeSegs_sanitized_ne_nil hreal)

/-- Witness for `sanitize_strict_descendant` at the spec's own example
`"../../etc/passwd"`. -/
theorem sanitize_strict_descendant_witness :
    hasTraversalOrEmptySeg "../../etc/passwd" = true ∧
    hasRealSeg "../../etc/passwd" = true ∧
    isStrictDescendant (out_path ["out"] "../../etc/passwd") ["out"] = true :=
  ⟨by decide, by decide,
    sanitize_strict_descendant ["out"] "../../etc/passwd" (by decide) (by decide)⟩

/-- Counterexample to C1 as stated: the name `"../.."` consists of
parent-directory segments only, so its output path equals the output
directory; and for `"../."` the only surviving segment is `"."`, so the
joined path `out/.` is the output directory on disk — in neither case a
strict descendant. -/
theorem sanitize_strict_descendant_cex :
    hasTraversalOrEmptySeg "../.." = true ∧
    out_path ["out"] "../.." = ["out"] ∧
    isStrictDescendant (out_path ["out"] "../..") ["out"] = false ∧
    hasTraversalOrEmptySeg "../." = true ∧
    out_path ["out"] "../." = ["out", "."] ∧
    isStrictDescendant (out_path ["out"] "../.") ["out"] = false := by
  decide

/-- C10 (confirmed): for a name all of whose `'/'`-separated segments are
empty or `".."`, `sanitized_name` is the empty relative path and the
computed output path equals the output directory itself. -/
theorem degenerate_name_out_path (dir : FPath) (name : String)
    (h : (splitName name).all (fun s => s == "" || s == "..") = true) :
    sanitized_name name = [] ∧ out_path dir name = dir := by
  have h1 : sanitized_name name = [] := by
    unfold sanitized_name
    rw [List.filter_eq_nil_iff]
    intro s hs
    rw [List.all_eq_true] at h
    have h2 := h s hs
    simp only [Bool.or_eq_true, beq_iff_eq] at h2
    rcases h2 with h2 | h2 <;> simp [h2]
  refine ⟨h1, ?_⟩
  unfold out_path
  rw [h1, List.append_nil]

/-- Witness for `degenerate_name_out_path` at `"../.."`. -/
theorem degenerate_name_out_path_witness :
    (splitName "../..").all (fun s => s == "" || s == "..") = true ∧
    sanitized_name "../.." = [] ∧ out_path ["out"] "../.." = ["out"] :=
  ⟨by decide, degenerate_name_out_path ["out"] "../.." (by decide)⟩

/-- C2 (code bug): the copy loop is `while let Ok(n) = reader.read(..)`, so
a read error silently terminates the loop; `extract_file` then flushes and
returns success, leaving a truncated file — the error never propagates.  A
`write_all` error, by contrast, does propagate (third conjunct). -/
theorem extract_file_swallows_read_error :
    (extract_file ⟨[ReadRes.err 7], [], true, true, true⟩ emptyFS ["f"]).2
      = none ∧
    (extract_file ⟨[ReadRes.err 7], [], true, true, true⟩ emptyFS ["f"]).1 ["f"]
      = some (FNode.file []) ∧
    (extract_file ⟨[ReadRes.ok [1], ReadRes.ok []], [false], true, true, true⟩
      emptyFS ["f"]).2 = some CErr.writeErr := by
  decide

/-- C8 (confirmed): for a content stream that delivers its decompressed
bytes `B` in nonempty chunks of at most 64 KiB followed by a zero-length
read, with all reads and writes succeeding, `extract_file` reports success
and the destination file holds exactly `B`. -/
theorem extract_file_roundtrip (B : List Nat) (cs : List (List Nat)) (fs : FS)
    (p : FPath) (hjoin : cs.flatten = B) (hne : ∀ c ∈ cs, c ≠ [])
    (hsz : ∀ c ∈ cs, c.length ≤ 64 * 1024) :
    (extract_file ⟨cs.map ReadRes.ok ++ [ReadRes.ok []], [], true, true, true⟩
        fs p).2 = none ∧
    (extract_file ⟨cs.map ReadRes.ok ++ [ReadRes.ok []], [], true, true, true⟩
        fs p).1 p = some (FNode.file B) := by
  have hc := copyLoop_all_ok cs hne
  constructor
  · rw [extract_file_snd]
    simp [copyErr, hc]
  · simp only [extract_file, hc]
    simp [FS.setNode, hjoin]

/-- Witness for `extract_file_roundtrip`: stream `[1,2]`, `[3]`, EOF. -/
theorem extract_file_roundtrip_witness :
    ([[1,2],[3]] : List (List Nat)).flatten = [1,2,3] ∧
    (extract_file
        ⟨[ReadRes.ok [1,2], ReadRes.ok [3], ReadRes.ok []], [], true, true, true⟩
        emptyFS ["a", "b"]).1 ["a", "b"] = some (FNode.file [1,2,3]) :=
  ⟨by decide,
   (extract_file_roundtrip [1,2,3] [[1,2],[3]] emptyFS ["a","b"]
     (by decide) (by decide) (by decide)).2⟩

/-- C3 (corrected): the parallel engine chunks `0..entry_count` with chunk
size `entry_count / w + 1` (integer division), not `ceil(entry_count / w)`;
only the last chunk may be shorter, the chunks cover the range in order,
and one task is spawned per chunk — at most `w` tasks, possibly fewer. -/
theorem parallel_chunking (n w : Nat) (hw : 1 ≤ w) :
    (parIndexChunks n w).flatten = List.range n ∧
    (∀ c ∈ parIndexChunks n w, c ≠ [] ∧ c.length ≤ n / w + 1) ∧
    (∀ c ∈ (parIndexChunks n w).dropLast, c.length = n / w + 1) ∧
    (parIndexChunks n w).length ≤ w := by
  refine ⟨chunksList_flatten _ _, ?_, ?_, ?_⟩
  · intro c hc
    exact chunksList_mem _ _ c hc
  · intro c hc
    exact chunksList_dropLast _ _ c hc
  · have h := chunksList_length_le (List.range n) w hw
    rw [List.length_range] at h
    exact h

/-- Witness for `parallel_chunking` at `n = 10`, `w = 2`. -/
theorem parallel_chunking_witness :
    (parIndexChunks 10 2).flatten = List.range 10 ∧
    (parIndexChunks 10 2).length ≤ 2 :=
  ⟨(parallel_chunking 10 2 (by decide)).1,
   (parallel_chunking 10 2 (by decide)).2.2.2⟩

/-- Counterexample to C3 as stated: with 10 entries and 2 workers the first
chunk has 6 entries, not `ceil(10/2) = 5`; and with 3 entries and 3 workers
(override 3, reachable since `numThreads 3 3 _ = 3 > 1`) only 2 chunks
exist, so only 2 tasks are spawned, not `w = 3`. -/
theorem parallel_chunking_cex :
    numThreads 2 10 4 = 2 ∧
    ceilDiv 10 2 = 5 ∧
    (parIndexChunks 10 2).map List.length = [6, 4] ∧
    numThreads 3 3 4 = 3 ∧
    (parIndexChunks 3 3).length = 2 := by
  decide

/-- C4 (corrected): `extract()` returns a structured `ZipError` when the
archive cannot be opened or parsed; but when the thread pool cannot be
constructed the code calls `.unwrap()` on the builder result and panics
instead of returning a structured error. -/
theorem extract_fatal_open_pool_panic (cfg : Config) (env : ExtractEnv)
    (fs : FS) (steps : List EStep) (e : ZErr) :
    (env.openResult = Except.error e →
      extract_ret cfg env fs = ExtractRet.err e) ∧
    (env.openResult = Except.ok steps →
      1 < numThreads cfg.worker_threads steps.length env.cpus →
      env.poolOk = false →
      extract_ret cfg env fs = ExtractRet.panicked) := by
  constructor
  · intro h
    unfold extract_ret extract_dispatch
    rw [h]
  · intro hopen hnt hpool
    have hd : extract_dispatch cfg env =
        Dispatch.parMode steps
          (numThreads cfg.worker_threads steps.length env.cpus) := by
      unfold extract_dispatch
      rw [hopen]
      simp [hnt]
    unfold extract_ret
    rw [hd, hpool]
    rfl

/-- Witness for `extract_fatal_open_pool_panic`: a failed open returns
`err`, and a failed pool construction with 2 workers over 2 entries ends in
a panic. -/
theorem extract_fatal_open_pool_panic_witness :
    extract_ret ZipExtractor.new ⟨Except.error (ZErr.zip 1), 4, true⟩ emptyFS
      = ExtractRet.err (ZErr.zip 1) ∧
    extract_ret ⟨0, 0, 2⟩
      ⟨Except.ok [EStep.dirE "a" true, EStep.dirE "b" true], 4, false⟩ emptyFS
      = ExtractRet.panicked :=
  ⟨(extract_fatal_open_pool_panic ZipExtractor.new
      ⟨Except.error (ZErr.zip 1), 4, true⟩ emptyFS [] (ZErr.zip 1)).1 rfl,
   (extract_fatal_open_pool_panic ⟨0, 0, 2⟩
      ⟨Except.ok [EStep.dirE "a" true, EStep.dirE "b" true], 4, false⟩ emptyFS
      [EStep.dirE "a" true, EStep.dirE "b" true] (ZErr.zip 0)).2 rfl
      (by decide) rfl⟩

/-- Counterexample to C4 as stated: when the pool builder fails, the
outcome of `extract()` is the panic marker, not a structured error value. -/
theorem pool_failure_not_structured_error_cex :
    extract_ret ⟨0, 0, 2⟩
      ⟨Except.ok [EStep.dirE "a" true, EStep.dirE "b" true], 4, false⟩ emptyFS
      = ExtractRet.panicked ∧
    ExtractRet.isStructuredErr (extract_ret ⟨0, 0, 2⟩
      ⟨Except.ok [EStep.dirE "a" true, EStep.dirE "b" true], 4, false⟩ emptyFS)
      = false := by
  decide

/-- C5 (confirmed): the selected worker count is `min(n, entry_count)` for
a positive override `n` and `clamp(entry_count / 20, 1, cpus)` otherwise,
and `extract` dispatches to the parallel engine exactly when that count
exceeds 1, to the sequential engine otherwise. -/
theorem worker_count_and_dispatch (cfg : Config) (env : ExtractEnv)
    (steps : List EStep) (hopen : env.openResult = Except.ok steps) :
    numThreads cfg.worker_threads steps.length env.cpus =
      (if 0 < cfg.worker_threads then min cfg.worker_threads steps.length
        else clampNat (steps.length / 20) 1 env.cpus) ∧
    (extract_dispatch cfg env =
        Dispatch.parMode steps
          (numThreads cfg.worker_threads steps.length env.cpus)
      ↔ 1 < numThreads cfg.worker_threads steps.length env.cpus) ∧
    (extract_dispatch cfg env = Dispatch.seqMode steps
      ↔ numThreads cfg.worker_threads steps.length env.cpus ≤ 1) := by
  refine ⟨?_, ?_, ?_⟩
  · unfold numThreads
    rcases Nat.eq_zero_or_pos cfg.worker_threads with h | h
    · rw [h]
      simp
    · rw [if_neg (Nat.pos_iff_ne_zero.1 h), if_pos h]
  · unfold extract_dispatch
    rw [hopen]
    by_cases hnt : 1 < numThreads cfg.worker_threads steps.length env.cpus
    · simp [hnt]
    · simp [hnt]
  · unfold extract_dispatch
    rw [hopen]
    by_cases hnt : 1 < numThreads cfg.worker_threads steps.length env.cpus
    · simp only [hnt, if_true, if_pos]
      constructor
      · intro hcontra
        exact absurd hcontra (by simp)
      · intro hle
        omega
    · simp only [hnt, if_false]
      constructor
      · intro _
        omega
      · intro _
        trivial

/-- Witness for `worker_count_and_dispatch`: 25 entries, auto override,
8 cpus selects 1 worker and the sequential engine. -/
theorem worker_count_and_dispatch_witness :
    numThreads 0 (List.replicate 25 (EStep.dirE "a" true)).length 8 = 1 ∧
    extract_dispatch ZipExtractor.new
      ⟨Except.ok (List.replicate 25 (EStep.dirE "a" true)), 8, true⟩
      = Dispatch.seqMode (List.replicate 25 (EStep.dirE "a" true)) :=
  ⟨by decide,
   ((worker_count_and_dispatch ZipExtractor.new
      ⟨Except.ok (List.replicate 25 (EStep.dirE "a" true)), 8, true⟩
      (List.replicate 25 (EStep.dirE "a" true)) rfl).2.2).2 (by decide)⟩

/-- C6 (confirmed): in sequential mode, if every entry before `s` succeeds
and `s` fails with error `e`, the run stops at `s` with error `e`: the
result ignores the remaining entries (second conjunct), and `extract()`
returns `err e` whenever it dispatched sequentially. -/
theorem sequential_first_error_aborts (pre post : List EStep) (s : EStep)
    (fs : FS) (e : ZErr)
    (hpre : (extract_sequential fs pre).2 = none)
    (he : errOf s = some e) :
    extract_sequential fs (pre ++ s :: post) =
      ((processEntry (extract_sequential fs pre).1 s).1, some e) ∧
    extract_sequential fs (pre ++ s :: post) =
      extract_sequential fs (pre ++ [s]) ∧
    ∀ (cfg : Config) (env : ExtractEnv),
      env.openResult = Except.ok (pre ++ s :: post) →
      numThreads cfg.worker_threads (pre ++ s :: post).length env.cpus ≤ 1 →
      extract_ret cfg env fs = ExtractRet.err e := by
  have hstep : ∀ (fs1 : FS) (rest : List EStep),
      extract_sequential fs1 (s :: rest) = ((processEntry fs1 s).1, some e) := by
    intro fs1 rest
    simp only [extract_sequential, processEntry_snd, he]
  have h1 : extract_sequential fs (pre ++ s :: post) =
      ((processEntry (extract_sequential fs pre).1 s).1, some e) := by
    rw [extract_sequential_append_ok pre (s :: post) fs hpre, hstep]
  have h2 : extract_sequential fs (pre ++ [s]) =
      ((processEntry (extract_sequential fs pre).1 s).1, some e) := by
    rw [extract_sequential_append_ok pre [s] fs hpre, hstep]
  refine ⟨h1, by rw [h1, h2], ?_⟩
  intro cfg env hopen hle
  have hd : extract_dispatch cfg env = Dispatch.seqMode (pre ++ s :: post) := by
    unfold extract_dispatch
    rw [hopen]
    simp only [if_neg (by omega :
      ¬ 1 < numThreads cfg.worker_threads (pre ++ s :: post).length env.cpus)]
  unfold extract_ret
  rw [hd]
  show (match (extract_sequential fs (pre ++ s :: post)).2 with
    | some e => ExtractRet.err e
    | none => ExtractRet.ok) = ExtractRet.err e
  rw [h1]

/-- Witness for `sequential_first_error_aborts`: a good directory entry,
then a failing fetch, then an unprocessed trailing entry. -/
theorem sequential_first_error_aborts_witness :
    (extract_sequential emptyFS [EStep.dirE "a" true]).2 = none ∧
    errOf (EStep.fetchErr 5) = some (ZErr.zip 5) ∧
    extract_sequential emptyFS
        ([EStep.dirE "a" true] ++ EStep.fetchErr 5 :: [EStep.dirE "b" true]) =
      ((processEntry (extract_sequential emptyFS [EStep.dirE "a" true]).1
          (EStep.fetchErr 5)).1, some (ZErr.zip 5)) :=
  ⟨by decide, by decide,
   (sequential_first_error_aborts [EStep.dirE "a" true] [EStep.dirE "b" true]
      (EStep.fetchErr 5) emptyFS (ZErr.zip 5) (by decide) (by decide)).1⟩

/-- C7 (confirmed): in parallel mode a failing entry is logged and skipped
— processing resumes with the rest of the worker's chunk (first conjunct),
the error appears in the log stream (second conjunct), and `extract()`
still returns success whenever the archive opened and the pool was built,
regardless of per-entry failures (third conjunct). -/
theorem parallel_skip_and_report (pre post : List EStep) (s : EStep)
    (fs : FS) (logs : List ZErr) (e : ZErr) (he : errOf s = some e) :
    runPar fs logs (pre ++ s :: post) =
      runPar (processEntry (runPar fs logs pre).1 s).1
        ((runPar fs logs pre).2 ++ [e]) post ∧
    e ∈ (runPar fs logs (pre ++ s :: post)).2 ∧
    ∀ (cfg : Config) (env : ExtractEnv) (steps : List EStep),
      env.openResult = Except.ok steps →
      1 < numThreads cfg.worker_threads steps.length env.cpus →
      env.poolOk = true →
      extract_ret cfg env fs = ExtractRet.ok := by
  have hstep : ∀ (fs1 : FS) (logs1 : List ZErr),
      runPar fs1 logs1 (s :: post) =
        runPar (processEntry fs1 s).1 (logs1 ++ [e]) post := by
    intro fs1 logs1
    simp only [runPar, processEntry_snd, he, Option.toList_some]
  have h1 : runPar fs logs (pre ++ s :: post) =
      runPar (processEntry (runPar fs logs pre).1 s).1
        ((runPar fs logs pre).2 ++ [e]) post := by
    rw [runPar_append, hstep]
  refine ⟨h1, ?_, ?_⟩
  · rw [h1, runPar_logs_shift]
    rw [List.mem_append]
    left
    rw [List.mem_append]
    right
    exact List.mem_singleton.2 rfl
  · intro cfg env steps hopen hnt hpool
    have hd : extract_dispatch cfg env =
        Dispatch.parMode steps
          (numThreads cfg.worker_threads steps.length env.cpus) := by
      unfold extract_dispatch
      rw [hopen]
      simp [hnt]
    unfold extract_ret
    rw [hd, hpool]
    rfl

/-- Witness for `parallel_skip_and_report`: a failing fetch between two
directory entries is logged, and `extract()` still returns `ok`. -/
theorem parallel_skip_and_report_witness :
    errOf (EStep.fetchErr 5) = some (ZErr.zip 5) ∧
    ZErr.zip 5 ∈ (runPar emptyFS []
      ([EStep.dirE "a" true] ++ EStep.fetchErr 5 :: [EStep.dirE "b" true])).2 ∧
    extract_ret ⟨0, 0, 2⟩
      ⟨Except.ok ([EStep.dirE "a" true] ++ EStep.fetchErr 5 ::
        [EStep.dirE "b" true]), 4, true⟩ emptyFS = ExtractRet.ok :=
  ⟨by decide,
   (parallel_skip_and_report [EStep.dirE "a" true] [EStep.dirE "b" true]
      (EStep.fetchErr 5) emptyFS [] (ZErr.zip 5) (by decide)).2.1,
   (parallel_skip_and_report [EStep.dirE "a" true] [EStep.dirE "b" true]
      (EStep.fetchErr 5) emptyFS [] (ZErr.zip 5) (by decide)).2.2
      ⟨0, 0, 2⟩
      ⟨Except.ok ([EStep.dirE "a" true] ++ EStep.fetchErr 5 ::
        [EStep.dirE "b" true]), 4, true⟩
      ([EStep.dirE "a" true] ++ EStep.fetchErr 5 :: [EStep.dirE "b" true])
      rfl (by decide) rfl⟩

/-- C9 (corrected): if every entry succeeds and no two entries write
conflicting nodes at the same sanitized output path, then every schedule
the parallel engine can produce yields exactly the sequential output tree,
with no error and nothing logged.  Without the no-conflict proviso the
claim fails: see the counterexample, where two entries share an output
path. -/
theorem parallel_schedule_matches_sequential (steps sched : List EStep)
    (w : Nat) (fs : FS)
    (hok : steps.all stepOk = true)
    (hcompat : List.Pairwise entriesCompat steps)
    (hsched : IsSchedule (parChunks steps w) sched) :
    (runPar fs [] sched).1 = (extract_sequential fs steps).1 ∧
    (runPar fs [] sched).2 = [] ∧
    (extract_sequential fs steps).2 = none := by
  have hokm : ∀ x ∈ steps, stepOk x = true := by
    intro x hx
    exact List.all_eq_true.1 hok x hx
  have hperm : List.Perm sched steps := by
    have h1 := isSchedule_perm hsched
    rwa [show (parChunks steps w).flatten = steps from
      chunksList_flatten _ _] at h1
  have hmem : ∀ x ∈ sched, x ∈ steps := fun x hx => hperm.mem_iff.1 hx
  have hcomp2 : ∀ x ∈ steps, ∀ y ∈ steps, entriesCompat x y := by
    intro x hx y hy
    exact List.Pairwise.forall_of_forall entriesCompat_symm
      (fun z _ => entriesCompat_self z) hcompat hx hy
  have hcomm : ∀ x ∈ sched, ∀ y ∈ sched, ∀ z : FS,
      applyStep (applyStep z x) y = applyStep (applyStep z y) x := by
    intro x hx y hy z
    have hx' := hmem x hx
    have hy' := hmem y hy
    simp only [applyStep_ok (hokm x hx'), applyStep_ok (hokm y hy')]
    exact applyWrites_comm z (entryWrites x) (entryWrites y)
      (hcomp2 x hx' y hy')
  have hfold : List.foldl applyStep fs sched = List.foldl applyStep fs steps :=
    hperm.foldl_eq' hcomm fs
  have hseq := extract_sequential_all_ok steps fs hokm
  refine ⟨?_, ?_, ?_⟩
  · rw [runPar_fst, hseq]
    exact hfold
  · exact runPar_all_ok_logs sched fs [] (fun x hx => hokm x (hmem x hx))
  · rw [hseq]

/-- Witness for `parallel_schedule_matches_sequential`: two files at
distinct paths, one chunk, the identity schedule. -/
theorem parallel_schedule_matches_sequential_witness :
    (List.all [EStep.fileE "wa" ⟨[ReadRes.ok [5], ReadRes.ok []], [], true, true, true⟩,
      EStep.fileE "wb" ⟨[ReadRes.ok [6], ReadRes.ok []], [], true, true, true⟩]
      stepOk) = true ∧
    (runPar emptyFS []
      [EStep.fileE "wa" ⟨[ReadRes.ok [5], ReadRes.ok []], [], true, true, true⟩,
       EStep.fileE "wb" ⟨[ReadRes.ok [6], ReadRes.ok []], [], true, true, true⟩]).1 =
    (extract_sequential emptyFS
      [EStep.fileE "wa" ⟨[ReadRes.ok [5], ReadRes.ok []], [], true, true, true⟩,
       EStep.fileE "wb" ⟨[ReadRes.ok [6], ReadRes.ok []], [], true, true, true⟩]).1 :=
  ⟨by decide,
   (parallel_schedule_matches_sequential
      [EStep.fileE "wa" ⟨[ReadRes.ok [5], ReadRes.ok []], [], true, true, true⟩,
       EStep.fileE "wb" ⟨[ReadRes.ok [6], ReadRes.ok []], [], true, true, true⟩]
      [EStep.fileE "wa" ⟨[ReadRes.ok [5], ReadRes.ok []], [], true, true, true⟩,
       EStep.fileE "wb" ⟨[ReadRes.ok [6], ReadRes.ok []], [], true, true, true⟩]
      2 emptyFS (by decide) (by decide)
      (by
        have h : parChunks
            [EStep.fileE "wa" ⟨[ReadRes.ok [5], ReadRes.ok []], [], true, true, true⟩,
             EStep.fileE "wb" ⟨[ReadRes.ok [6], ReadRes.ok []], [], true, true, true⟩] 2 =
            [[EStep.fileE "wa" ⟨[ReadRes.ok [5], ReadRes.ok []], [], true, true, true⟩,
              EStep.fileE "wb" ⟨[ReadRes.ok [6], ReadRes.ok []], [], true, true, true⟩]] := by
          decide
        rw [h]
        exact IsSchedule.take (IsSchedule.take (IsSchedule.skip IsSchedule.nil)))).1⟩

/-- Counterexample to C9 as stated: entries `cexFileA` and `cexFileB` both
sanitize to the output path `["x"]` with different contents; all entries
succeed, yet the parallel schedule that runs the second chunk first ends
with content `[1]` at `["x"]` while the sequential run ends with `[2]`. -/
theorem parallel_schedule_differs_cex :
    (List.all [cexFileA, cexDir, cexFileB] stepOk) = true ∧
    IsSchedule (parChunks [cexFileA, cexDir, cexFileB] 3)
      [cexFileB, cexFileA, cexDir] ∧
    (extract_sequential emptyFS [cexFileA, cexDir, cexFileB]).2 = none ∧
    (extract_sequential emptyFS [cexFileA, cexDir, cexFileB]).1 ["x"]
      = some (FNode.file [2]) ∧
    (runPar emptyFS [] [cexFileB, cexFileA, cexDir]).1 ["x"]
      = some (FNode.file [1]) := by
  refine ⟨by decide, ?_, by decide, by decide, by decide⟩
  have h : parChunks [cexFileA, cexDir, cexFileB] 3 =
      [[cexFileA, cexDir], [cexFileB]] := by decide
  rw [h]
  exact IsSchedule.reorder (List.Perm.swap _ _ _)
    (IsSchedule.take (IsSchedule.skip (IsSchedule.take
      (IsSchedule.take (IsSchedule.skip IsSchedule.nil)))))
